import Mathlib

/-!
Shallow embedding of the reading-tracker single-page app (`src/index.tsx`)
and verification of its derived-statistics and mutation layer.

JS objects (`Records`, the per-day sub-maps, the `totals` accumulator) are
modelled as insertion-ordered association lists with unique keys, matching
JS object semantics for the non-numeric string keys this program uses.
Chapter counts are JS numbers restricted to integers (`Int`), dates are a
proleptic-Gregorian calendar structure as implemented by the JS `Date`
class.
-/

/-- A per-day sub-map `records[date]`: JS object mapping member name to
    chapter count, as an insertion-ordered association list. -/
abbrev DayMap := List (String × Int)

/-- The `records` table (`type Records` in the source):
    date-key `YYYY-MM-DD` → per-day sub-map. -/
abbrev Records := List (String × DayMap)

/-- The store published by the `App` component: `{ users, records }`. -/
structure Store where
  users : List String
  records : Records
  deriving DecidableEq, Repr

/-- JS property read `obj[k]` on an association list (JS objects have unique
    keys; the first binding wins). -/
def lookupKey {β : Type} (l : List (String × β)) (k : String) : Option β :=
  match l with
  | [] => none
  | (k₁, v) :: t => if k₁ = k then some v else lookupKey t k

/-- JS `obj.hasOwnProperty(k)` (equivalently `k in obj`). -/
def hasKey {β : Type} (l : List (String × β)) (k : String) : Bool :=
  l.any (fun p => p.1 = k)

/-- `Object.keys(obj)`. -/
def keysOf {β : Type} (l : List (String × β)) : List String :=
  l.map (fun p => p.1)

-- ## Dates (the JS `Date` class, restricted to calendar days)

/-- A calendar day as held by a JS `Date` (proleptic Gregorian; the year may
    be negative). -/
structure Date where
  year : Int
  month : Nat
  day : Nat
  deriving DecidableEq, Repr

/-- Gregorian leap-year rule, as implemented by the JS `Date` class. -/
def isLeap (y : Int) : Bool :=
  y % 4 = 0 && (y % 100 != 0 || y % 400 = 0)

/-- Number of days in a month. The source computes this as
    `new Date(year, month + 1, 0).getDate()`. -/
def daysInMonth (y : Int) (m : Nat) : Nat :=
  if m = 2 then (if isLeap y then 29 else 28)
  else if m = 4 ∨ m = 6 ∨ m = 9 ∨ m = 11 then 30
  else 31

/-- A well-formed calendar date (true of every date a JS `Date` holds). -/
def Date.Valid (d : Date) : Prop :=
  1 ≤ d.month ∧ d.month ≤ 12 ∧ 1 ≤ d.day ∧ d.day ≤ daysInMonth d.year d.month

instance (d : Date) : Decidable d.Valid := by
  unfold Date.Valid; infer_instance

/-- `d.setDate(d.getDate() - 1)`: move a `Date` to the previous calendar
    day, rolling over month and year boundaries as JS does. -/
def prevDay (d : Date) : Date :=
  if 1 < d.day then { d with day := d.day - 1 }
  else if 1 < d.month then
    { year := d.year, month := d.month - 1, day := daysInMonth d.year (d.month - 1) }
  else { year := d.year - 1, month := 12, day := 31 }

/-- `prevDay` iterated `n` times. -/
def nthPrev (d : Date) : Nat → Date
  | 0 => d
  | n + 1 => nthPrev (prevDay d) n

-- ## ISO date keys (`toISOString().split('T')[0]`)

/-- Fixed-width 2-digit decimal rendering (`n` below 100 in all uses). -/
def pad2 (n : Nat) : List Char :=
  [Nat.digitChar (n / 10 % 10), Nat.digitChar (n % 10)]

/-- Fixed-width 4-digit decimal rendering. -/
def pad4 (n : Nat) : List Char :=
  [Nat.digitChar (n / 1000 % 10), Nat.digitChar (n / 100 % 10),
   Nat.digitChar (n / 10 % 10), Nat.digitChar (n % 10)]

/-- Fixed-width 6-digit decimal rendering. -/
def pad6 (n : Nat) : List Char :=
  [Nat.digitChar (n / 100000 % 10), Nat.digitChar (n / 10000 % 10),
   Nat.digitChar (n / 1000 % 10), Nat.digitChar (n / 100 % 10),
   Nat.digitChar (n / 10 % 10), Nat.digitChar (n % 10)]

/-- Year part of an ISO date string: 4 digits for 0..9999, expanded
    `±YYYYYY` form otherwise, as in the ECMAScript date-time string format. -/
def yearChars (y : Int) : List Char :=
  if 0 ≤ y ∧ y ≤ 9999 then pad4 y.toNat
  else if y < 0 then '-' :: pad6 (-y).toNat
  else '+' :: pad6 y.toNat

/-- The date part of `d.toISOString()` (what `.split('T')[0]` keeps):
    `YYYY-MM-DD`. -/
def toKey (d : Date) : String :=
  String.mk (yearChars d.year ++ '-' :: pad2 d.month ++ '-' :: pad2 d.day)

/-- `getTodayDateString()` of the source, applied to the current date:
    `new Date().toISOString().split("T")[0]`. -/
def getTodayDateString (today : Date) : String :=
  toKey today

/-- `getMonthFromDateString(dateString)`: `dateString.substring(0, 7)`. -/
def getMonthFromDateString (s : String) : String :=
  String.mk (s.data.take 7)

/-- Numeric value of a decimal digit character, if it is one. -/
def digitVal (c : Char) : Option Nat :=
  if '0' ≤ c ∧ c ≤ '9' then some (c.toNat - 48) else none

/-- What `new Date(dateString)` accepts for this app's keys: a strict
    `YYYY-MM-DD` string with in-range month and day parses to that calendar
    day; anything else (including out-of-range day, e.g. `2024-02-30`) is an
    invalid JS date, modelled as `none`. -/
def parseDateKey (s : String) : Option Date :=
  match s.data with
  | [y1, y2, y3, y4, s1, m1, m2, s2, e1, e2] =>
    if s1 = '-' ∧ s2 = '-' then
      match digitVal y1, digitVal y2, digitVal y3, digitVal y4,
            digitVal m1, digitVal m2, digitVal e1, digitVal e2 with
      | some a, some b, some c, some d, some e, some f, some g, some h =>
        let y : Int := Int.ofNat (a * 1000 + b * 100 + c * 10 + d)
        let m := e * 10 + f
        let dd := g * 10 + h
        if 1 ≤ m ∧ m ≤ 12 ∧ 1 ≤ dd ∧ dd ≤ daysInMonth y m then
          some { year := y, month := m, day := dd }
        else none
      | _, _, _, _, _, _, _, _ => none
    else none
  | _ => none

-- ## Basic date lemmas

theorem digitVal_digitChar : ∀ n < 10, digitVal (Nat.digitChar n) = some n := by
  decide

theorem daysInMonth_pos (y : Int) (m : Nat) : 1 ≤ daysInMonth y m := by
  unfold daysInMonth
  split
  · split <;> omega
  · split <;> omega

theorem daysInMonth_le (y : Int) (m : Nat) : daysInMonth y m ≤ 31 := by
  unfold daysInMonth
  split
  · split <;> omega
  · split <;> omega

theorem daysInMonth_dec12 (y : Int) : daysInMonth (y - 1) 12 = 31 := by
  unfold daysInMonth; norm_num

theorem prevDay_valid {d : Date} (h : d.Valid) : (prevDay d).Valid := by
  obtain ⟨h1, h2, h3, h4⟩ := h
  have h12 := daysInMonth_dec12 d.year
  have hpos := daysInMonth_pos d.year (d.month - 1)
  unfold prevDay Date.Valid
  split
  · dsimp only
    omega
  · split
    · dsimp only
      omega
    · dsimp only
      omega

theorem prevDay_year (d : Date) :
    (prevDay d).year = d.year ∨ (prevDay d).year = d.year - 1 := by
  unfold prevDay
  split
  · exact Or.inl rfl
  · split
    · exact Or.inl rfl
    · exact Or.inr rfl

theorem nthPrev_valid {d : Date} (h : d.Valid) (n : Nat) : (nthPrev d n).Valid := by
  induction n generalizing d with
  | zero => exact h
  | succ n ih => exact ih (prevDay_valid h)

theorem nthPrev_year_bounds {d : Date} (n : Nat) :
    d.year - n ≤ (nthPrev d n).year ∧ (nthPrev d n).year ≤ d.year := by
  induction n generalizing d with
  | zero => simp [nthPrev]
  | succ n ih =>
    have hstep := prevDay_year d
    have h := ih (d := prevDay d)
    show d.year - (n + 1 : Nat) ≤ (nthPrev (prevDay d) n).year ∧
      (nthPrev (prevDay d) n).year ≤ d.year
    push_cast
    push_cast at h
    omega

/-- A rank strictly decreased by `prevDay` on valid dates. -/
def dateRank (d : Date) : Int :=
  d.year * 500 + d.month * 40 + d.day

theorem prevDay_rank_lt {d : Date} (h : d.Valid) : dateRank (prevDay d) < dateRank d := by
  obtain ⟨h1, h2, h3, h4⟩ := h
  have hd31 : d.day ≤ 31 := le_trans h4 (daysInMonth_le _ _)
  have hmle := daysInMonth_le d.year (d.month - 1)
  unfold prevDay dateRank
  split
  · dsimp only
    omega
  · split
    · dsimp only
      omega
    · dsimp only
      omega

theorem nthPrev_succ (d : Date) (n : Nat) :
    nthPrev d (n + 1) = prevDay (nthPrev d n) := by
  induction n generalizing d with
  | zero => rfl
  | succ n ih =>
    show nthPrev (prevDay d) (n + 1) = _
    rw [ih (prevDay d)]
    rfl

theorem nthPrev_rank_strict {d : Date} (h : d.Valid) {i j : Nat} (hij : i < j) :
    dateRank (nthPrev d j) < dateRank (nthPrev d i) := by
  induction j with
  | zero => omega
  | succ j ih =>
    rw [nthPrev_succ]
    have hlt : dateRank (prevDay (nthPrev d j)) < dateRank (nthPrev d j) :=
      prevDay_rank_lt (nthPrev_valid h j)
    rcases Nat.lt_succ_iff_lt_or_eq.mp hij with hij2 | rfl
    · exact lt_trans hlt (ih hij2)
    · exact hlt

theorem nthPrev_ne {d : Date} (h : d.Valid) {i j : Nat} (hij : i < j) :
    nthPrev d j ≠ nthPrev d i := by
  intro heq
  have := nthPrev_rank_strict h hij
  rw [heq] at this
  omega

-- ## Key formatting lemmas

theorem digitChar_inj : ∀ a < 10, ∀ b < 10, Nat.digitChar a = Nat.digitChar b → a = b := by
  decide

theorem mod10_lt (n : Nat) : n % 10 < 10 := Nat.mod_lt _ (by norm_num)

theorem parseDateKey_toKey {d : Date} (hv : d.Valid) (h0 : 0 ≤ d.year)
    (h1 : d.year ≤ 9999) : parseDateKey (toKey d) = some d := by
  obtain ⟨hm1, hm2, hd1, hd2⟩ := hv
  have hd31 : d.day ≤ 31 := le_trans hd2 (daysInMonth_le _ _)
  have hy : d.year.toNat ≤ 9999 := by omega
  unfold toKey yearChars
  rw [if_pos ⟨h0, h1⟩]
  unfold parseDateKey
  dsimp only [pad4, pad2, List.cons_append, List.nil_append]
  rw [if_pos (by constructor <;> rfl)]
  rw [digitVal_digitChar _ (mod10_lt _), digitVal_digitChar _ (mod10_lt _),
      digitVal_digitChar _ (mod10_lt _), digitVal_digitChar _ (mod10_lt _),
      digitVal_digitChar _ (mod10_lt _), digitVal_digitChar _ (mod10_lt _),
      digitVal_digitChar _ (mod10_lt _), digitVal_digitChar _ (mod10_lt _)]
  dsimp only
  have hyeq : d.year.toNat / 1000 % 10 * 1000 + d.year.toNat / 100 % 10 * 100 +
      d.year.toNat / 10 % 10 * 10 + d.year.toNat % 10 = d.year.toNat := by omega
  have hmeq : d.month / 10 % 10 * 10 + d.month % 10 = d.month := by omega
  have hdeq : d.day / 10 % 10 * 10 + d.day % 10 = d.day := by omega
  rw [hyeq, hmeq, hdeq]
  have hyr : Int.ofNat d.year.toNat = d.year := by
    exact_mod_cast Int.toNat_of_nonneg h0
  rw [hyr]
  rw [if_pos ⟨hm1, hm2, hd1, hd2⟩]

theorem toKey_data_nonneg {d : Date} (h0 : 0 ≤ d.year) (h1 : d.year ≤ 9999) :
    (toKey d).data = pad4 d.year.toNat ++ '-' :: pad2 d.month ++ '-' :: pad2 d.day := by
  unfold toKey yearChars
  rw [if_pos ⟨h0, h1⟩]

theorem toKey_data_neg {d : Date} (h0 : d.year < 0) :
    (toKey d).data =
      '-' :: pad6 (-d.year).toNat ++ '-' :: pad2 d.month ++ '-' :: pad2 d.day := by
  unfold toKey yearChars
  rw [if_neg (by omega), if_pos h0]

theorem toKey_inj {d₁ d₂ : Date} (hv₁ : d₁.Valid) (hv₂ : d₂.Valid)
    (hy₁ : -999999 ≤ d₁.year) (hy₂ : d₁.year ≤ 9999)
    (hy₃ : -999999 ≤ d₂.year) (hy₄ : d₂.year ≤ 9999)
    (h : toKey d₁ = toKey d₂) : d₁ = d₂ := by
  obtain ⟨a1, a2, a3, a4⟩ := hv₁
  obtain ⟨b1, b2, b3, b4⟩ := hv₂
  have ha31 : d₁.day ≤ 31 := le_trans a4 (daysInMonth_le _ _)
  have hb31 : d₂.day ≤ 31 := le_trans b4 (daysInMonth_le _ _)
  have hdata := congrArg String.data h
  by_cases hs₁ : 0 ≤ d₁.year
  · by_cases hs₂ : 0 ≤ d₂.year
    · have p₁ := parseDateKey_toKey ⟨a1, a2, a3, a4⟩ hs₁ hy₂
      have p₂ := parseDateKey_toKey ⟨b1, b2, b3, b4⟩ hs₂ hy₄
      rw [h, p₂] at p₁
      exact (Option.some.inj p₁).symm
    · rw [toKey_data_nonneg hs₁ hy₂, toKey_data_neg (by omega)] at hdata
      have hlen := congrArg List.length hdata
      simp [pad4, pad6, pad2] at hlen
  · by_cases hs₂ : 0 ≤ d₂.year
    · rw [toKey_data_neg (by omega), toKey_data_nonneg hs₂ hy₄] at hdata
      have hlen := congrArg List.length hdata
      simp [pad4, pad6, pad2] at hlen
    · rw [toKey_data_neg (by omega), toKey_data_neg (by omega)] at hdata
      simp only [pad6, pad2, List.cons_append, List.nil_append, List.cons.injEq,
        and_true, true_and] at hdata
      obtain ⟨q1, q2, q3, q4, q5, q6, q7, q8, q9, q10⟩ := hdata
      have e1 := digitChar_inj _ (mod10_lt _) _ (mod10_lt _) q1
      have e2 := digitChar_inj _ (mod10_lt _) _ (mod10_lt _) q2
      have e3 := digitChar_inj _ (mod10_lt _) _ (mod10_lt _) q3
      have e4 := digitChar_inj _ (mod10_lt _) _ (mod10_lt _) q4
      have e5 := digitChar_inj _ (mod10_lt _) _ (mod10_lt _) q5
      have e6 := digitChar_inj _ (mod10_lt _) _ (mod10_lt _) q6
      have e7 := digitChar_inj _ (mod10_lt _) _ (mod10_lt _) q7
      have e8 := digitChar_inj _ (mod10_lt _) _ (mod10_lt _) q8
      have e9 := digitChar_inj _ (mod10_lt _) _ (mod10_lt _) q9
      have e10 := digitChar_inj _ (mod10_lt _) _ (mod10_lt _) q10
      have hyy : d₁.year = d₂.year := by omega
      have hmm : d₁.month = d₂.month := by omega
      have hdd : d₁.day = d₂.day := by omega
      cases d₁
      cases d₂
      simp only [Date.mk.injEq]
      dsimp only at hyy hmm hdd
      exact ⟨hyy, hmm, hdd⟩

-- ## Streak calculator (`calculateConsecutiveDays`)

/-- Truthiness of `records[dateStr] && records[dateStr][user]`: the day's
    sub-map exists and holds a non-zero count for the user (any JS object is
    truthy; a number is truthy iff non-zero). -/
def hasEntryB (records : Records) (key : String) (user : String) : Bool :=
  match lookupKey records key with
  | none => false
  | some sub =>
    match lookupKey sub user with
    | none => false
    | some v => v != 0

/-- `records[date][user]` as an optional value. -/
def entryVal (records : Records) (key : String) (user : String) : Option Int :=
  (lookupKey records key).bind (fun sub => lookupKey sub user)

/-- The `while (true)` walk of `calculateConsecutiveDays`, with explicit
    recursion fuel. The JS loop is unbounded in its text, but on any store a
    successful iteration consumes a distinct date key of `records` (ISO keys
    of distinct days differ), so it can run at most `records.length + 1`
    times; `calculateConsecutiveDays` below passes exactly that bound as
    fuel. -/
def consecutiveFrom (records : Records) (user : String) : Date → Nat → Nat
  | _, 0 => 0
  | d, fuel + 1 =>
    if hasEntryB records (toKey d) user then
      consecutiveFrom records user (prevDay d) fuel + 1
    else 0

/-- `calculateConsecutiveDays(user, records)` of the source, started at the
    given current date (`new Date()`). -/
def calculateConsecutiveDays (user : String) (records : Records) (today : Date) : Nat :=
  consecutiveFrom records user today (records.length + 1)

theorem hasEntryB_of_entryVal {records : Records} {key user : String} {v : Int}
    (h : entryVal records key user = some v) (hv : v ≠ 0) :
    hasEntryB records key user = true := by
  unfold entryVal at h
  unfold hasEntryB
  cases h1 : lookupKey records key with
  | none => rw [h1] at h; simp at h
  | some sub =>
    rw [h1] at h
    simp only [Option.some_bind] at h
    dsimp only
    rw [h]
    simpa using hv

theorem hasEntryB_none {records : Records} {key user : String}
    (h : entryVal records key user = none) :
    hasEntryB records key user = false := by
  unfold entryVal at h
  unfold hasEntryB
  cases h1 : lookupKey records key with
  | none => rfl
  | some sub =>
    rw [h1] at h
    simp only [Option.some_bind] at h
    dsimp only
    rw [h]

theorem lookupKey_some_mem {β : Type} {l : List (String × β)} {k : String} {v : β}
    (h : lookupKey l k = some v) : k ∈ keysOf l := by
  induction l with
  | nil => simp [lookupKey] at h
  | cons p t ih =>
    obtain ⟨k₁, v₁⟩ := p
    unfold lookupKey at h
    by_cases hk : k₁ = k
    · simp [keysOf, hk]
    · rw [if_neg hk] at h
      simpa [keysOf] using Or.inr (ih h)

theorem consecutiveFrom_eq (records : Records) (user : String) :
    ∀ (N : Nat) (d : Date) (fuel : Nat), N < fuel →
    (∀ i < N, hasEntryB records (toKey (nthPrev d i)) user = true) →
    hasEntryB records (toKey (nthPrev d N)) user = false →
    consecutiveFrom records user d fuel = N := by
  intro N
  induction N with
  | zero =>
    intro d fuel hf _ hstop
    match fuel, hf with
    | fuel + 1, _ =>
      unfold consecutiveFrom
      rw [show nthPrev d 0 = d from rfl] at hstop
      rw [hstop]
      simp
  | succ N ih =>
    intro d fuel hf hdays hstop
    match fuel, hf with
    | fuel + 1, hf =>
      unfold consecutiveFrom
      have h0 := hdays 0 (Nat.succ_pos _)
      rw [show nthPrev d 0 = d from rfl] at h0
      rw [h0]
      simp only [if_true]
      have hrec := ih (prevDay d) fuel (by omega)
        (fun i hi => hdays (i + 1) (by omega)) hstop
      omega

theorem streak_le_records (records : Records) (user : String) {today : Date} {N : Nat}
    (hv : today.Valid) (h0 : 0 ≤ today.year) (h1 : today.year ≤ 9999)
    (hN : N ≤ 990000)
    (hdays : ∀ i < N, ∃ v, entryVal records (toKey (nthPrev today i)) user = some v) :
    N ≤ records.length := by
  have hinj : ∀ i ∈ List.range N, ∀ j ∈ List.range N,
      toKey (nthPrev today i) = toKey (nthPrev today j) → i = j := by
    intro i hi j hj hkey
    rw [List.mem_range] at hi hj
    have hdi := toKey_inj (nthPrev_valid hv i) (nthPrev_valid hv j)
      (by have := nthPrev_year_bounds (d := today) i; omega)
      (by have := nthPrev_year_bounds (d := today) i; omega)
      (by have := nthPrev_year_bounds (d := today) j; omega)
      (by have := nthPrev_year_bounds (d := today) j; omega)
      hkey
    by_contra hne
    rcases Nat.lt_or_ge i j with hlt | hge
    · exact nthPrev_ne hv hlt hdi.symm
    · exact nthPrev_ne hv (by omega) hdi
  have hnd : ((List.range N).map (fun i => toKey (nthPrev today i))).Nodup :=
    List.Nodup.map_on hinj (List.nodup_range N)
  have hsub : ((List.range N).map (fun i => toKey (nthPrev today i))) ⊆ keysOf records := by
    intro k hk
    rw [List.mem_map] at hk
    obtain ⟨i, hi, rfl⟩ := hk
    rw [List.mem_range] at hi
    obtain ⟨v, hev⟩ := hdays i hi
    unfold entryVal at hev
    cases h1 : lookupKey records (toKey (nthPrev today i)) with
    | none => rw [h1] at hev; simp at hev
    | some sub => exact lookupKey_some_mem h1
  have hle := (List.subperm_of_subset hnd hsub).length_le
  simp only [List.length_map, List.length_range] at hle
  calc N ≤ (keysOf records).length := hle
    _ = records.length := by simp [keysOf]

/-- C2: for every member and store, if the member has an entry (count ≥ 1)
    on each of the N consecutive calendar days ending at today's date
    (`today_key()`) and no entry on the day before those N days,
    `calculateConsecutiveDays` returns exactly N. The instance N = 0 is the
    edge case: a member with no entry today has streak 0 regardless of any
    prior history. `today` is the actual current clock date, hence valid
    with year in 0..9999; `N ≤ 990000` (over 2700 years of consecutive
    days) keeps every walked day inside the range the ISO key format is
    injective on, which covers every streak a JS `Date` can reach. -/
theorem consecutiveDays_streak (user : String) (records : Records) (today : Date) (N : Nat)
    (hv : today.Valid) (h0 : 0 ≤ today.year) (h1 : today.year ≤ 9999)
    (hN : N ≤ 990000)
    (hdays : ∀ i < N, 1 ≤ (entryVal records (toKey (nthPrev today i)) user).getD 0)
    (hstop : entryVal records (toKey (nthPrev today N)) user = none) :
    calculateConsecutiveDays user records today = N := by
  have hsome : ∀ i < N,
      ∃ v, entryVal records (toKey (nthPrev today i)) user = some v ∧ 1 ≤ v := by
    intro i hi
    have hgd := hdays i hi
    cases hev : entryVal records (toKey (nthPrev today i)) user with
    | none => rw [hev] at hgd; simp at hgd
    | some v =>
      refine ⟨v, rfl, ?_⟩
      rw [hev] at hgd
      simpa using hgd
  have hlen : N ≤ records.length :=
    streak_le_records records user hv h0 h1 hN
      (fun i hi => (hsome i hi).elim (fun v hv2 => ⟨v, hv2.1⟩))
  apply consecutiveFrom_eq
  · omega
  · intro i hi
    obtain ⟨v, hev, hv1⟩ := hsome i hi
    exact hasEntryB_of_entryVal hev (by omega)
  · exact hasEntryB_none hstop

/-- A concrete store: member A checked in on 2024-05-05 and 2024-05-06 and
    not on 2024-05-04. -/
def exStreakRecords : Records :=
  [("2024-05-06", [("A", 3)]), ("2024-05-05", [("A", 2)])]

/-- Witness for C2: a two-day streak ending 2024-05-06 yields exactly 2. -/
theorem consecutiveDays_streak_witness :
    calculateConsecutiveDays "A" exStreakRecords ⟨2024, 5, 6⟩ = 2 :=
  consecutiveDays_streak "A" exStreakRecords ⟨2024, 5, 6⟩ 2
    (by decide) (by decide) (by decide) (by decide) (by decide) (by decide)

-- ## C9: the backward walk has no fixed iteration cap

theorem lookupKey_const {β : Type} (keys : List String) (c : β) (k : String)
    (hk : k ∈ keys) : lookupKey (keys.map (fun x => (x, c))) k = some c := by
  induction keys with
  | nil => simp at hk
  | cons k₁ t ih =>
    unfold lookupKey
    dsimp only [List.map]
    by_cases h : k₁ = k
    · rw [if_pos h]
    · rw [if_neg h]
      rcases List.mem_cons.mp hk with rfl | hmem
      · exact absurd rfl h
      · exact ih hmem

theorem hasEntryB_single {records : Records} {key user : String}
    (h : lookupKey records key = some [(user, 1)]) :
    hasEntryB records key user = true := by
  unfold hasEntryB
  rw [h]
  dsimp only
  unfold lookupKey
  rw [if_pos rfl]
  decide

theorem consecutiveFrom_ge (records : Records) (user : String) :
    ∀ (K : Nat) (d : Date) (fuel : Nat), K ≤ fuel →
    (∀ i < K, hasEntryB records (toKey (nthPrev d i)) user = true) →
    K ≤ consecutiveFrom records user d fuel := by
  intro K
  induction K with
  | zero => intro d fuel _ _; exact Nat.zero_le _
  | succ K ih =>
    intro d fuel hf hdays
    match fuel, hf with
    | fuel + 1, hf =>
      unfold consecutiveFrom
      have h0 := hdays 0 (Nat.succ_pos _)
      rw [show nthPrev d 0 = d from rfl] at h0
      rw [h0]
      simp only [if_true]
      have hrec := ih (prevDay d) fuel (by omega)
        (fun i hi => hdays (i + 1) (by omega))
      omega

/-- A store in which the user has an entry on each of the `n` consecutive
    days ending at `today`. -/
def denseRecords (user : String) (today : Date) (n : Nat) : Records :=
  ((List.range n).map (fun i => toKey (nthPrev today i))).map
    (fun k => (k, [(user, 1)]))

/-- C9: the `while (true)` walk of `calculateConsecutiveDays` is not capped
    by any fixed number of iterations: for every candidate cap there is a
    store on which the walk succeeds more than `cap` times (each success is
    one loop iteration), so no fixed implementation constant bounds it.
    Termination comes only from the finiteness of the record store. -/
theorem consecutiveDays_no_fixed_cap (cap : Nat) :
    ∃ (records : Records) (today : Date),
      cap < calculateConsecutiveDays "A" records today := by
  refine ⟨denseRecords "A" ⟨2024, 5, 6⟩ (cap + 1), ⟨2024, 5, 6⟩, ?_⟩
  have hlen : (denseRecords "A" ⟨2024, 5, 6⟩ (cap + 1)).length = cap + 1 := by
    simp [denseRecords]
  have hdays : ∀ i < cap + 1,
      hasEntryB (denseRecords "A" ⟨2024, 5, 6⟩ (cap + 1))
        (toKey (nthPrev ⟨2024, 5, 6⟩ i)) "A" = true := by
    intro i hi
    apply hasEntryB_single
    apply lookupKey_const
    exact List.mem_map_of_mem _ (List.mem_range.mpr hi)
  have hge := consecutiveFrom_ge (denseRecords "A" ⟨2024, 5, 6⟩ (cap + 1)) "A"
    (cap + 1) ⟨2024, 5, 6⟩ ((denseRecords "A" ⟨2024, 5, 6⟩ (cap + 1)).length + 1)
    (by omega) hdays
  unfold calculateConsecutiveDays
  omega

-- ## Mutation engine

/-- JS object spread update `{ ...obj, [k]: v }`: replaces the value at an
    existing key in place (key order preserved), otherwise appends the new
    key at the end. -/
def setKey {β : Type} (l : List (String × β)) (k : String) (v : β) : List (String × β) :=
  if hasKey l k then l.map (fun p => if p.1 = k then (k, v) else p)
  else l ++ [(k, v)]

/-- `handleCheckIn(user, chapters)` (also wired to the daily-report edit
    button as `onUpdateRecord`): the functional update
    `{ ...prev, records: { ...prev.records, [today]: { ...prev.records[today], [user]: chapters } } }`.
    A missing `prev.records[today]` spreads as the empty object. -/
def handleCheckIn (s : Store) (today : String) (user : String) (chapters : Int) : Store :=
  let todaySub := (lookupKey s.records today).getD []
  { s with records := setKey s.records today (setKey todaySub user chapters) }

/-- Signals surfaced as `alert(...)` at the UI boundary. -/
inductive MutationError where
  | invalidChapters
  | duplicateMember
  deriving DecidableEq, Repr

/-- `CheckInForm.handleSubmit`: rejects an empty member selection, an empty
    chapters field (`chapters === ""`, here `none` — the numeric input also
    yields the empty string for non-numeric text) or a non-positive count
    (`+chapters <= 0`) with an alert, leaving the store untouched;
    otherwise invokes `handleCheckIn`. -/
def checkInSubmit (s : Store) (today : String) (selectedUser : String)
    (chapters : Option Int) : Store × Option MutationError :=
  match chapters with
  | none => (s, some .invalidChapters)
  | some c =>
    if selectedUser = "" ∨ c ≤ 0 then (s, some .invalidChapters)
    else (handleCheckIn s today selectedUser c, none)

/-- `handleAddUser(newUser)`: alerts and returns with the store unchanged
    if the name is already present (`users.includes(newUser)`), otherwise
    appends it to `users`. -/
def handleAddUser (s : Store) (newUser : String) : Store × Option MutationError :=
  if newUser ∈ s.users then (s, some .duplicateMember)
  else ({ s with users := s.users ++ [newUser] }, none)

/-- JS `delete obj[k]`. -/
def deleteKey {β : Type} (l : List (String × β)) (k : String) : List (String × β) :=
  l.filter (fun p => p.1 ≠ k)

/-- One step of the deletion loop of `handleRemoveUser`:
    `if (newRecords[date][userToRemove]) { delete newRecords[date][userToRemove]; }`
    applied to one day's sub-map (truthiness: present and non-zero). -/
def removeFromDay (sub : DayMap) (u : String) : DayMap :=
  match lookupKey sub u with
  | none => sub
  | some v => if v ≠ 0 then deleteKey sub u else sub

/-- The per-date sub-maps as they stand after `handleRemoveUser` runs. The
    source makes only a shallow copy `{ ...prevData.records }`, so each
    `newRecords[date]` is the same object the previously published store
    references, and `delete newRecords[date][userToRemove]` — guarded by the
    truthiness test `if (newRecords[date][userToRemove])` — mutates that
    shared object. -/
def removeUserRecords (records : Records) (userToRemove : String) : Records :=
  records.map (fun p => (p.1, removeFromDay p.2 userToRemove))

/-- `handleRemoveUser(userToRemove)` (the confirmed branch): returns the
    pair (new store passed to `setData`, state of the previously published
    input store after the handler ran). The second component records the
    aliasing effect: the old store keeps its own `users` array and its own
    top-level `records` object, but the per-date sub-maps inside it are the
    very objects the deletion loop just modified. -/
def handleRemoveUser (s : Store) (userToRemove : String) : Store × Store :=
  ({ users := s.users.filter (fun u => u ≠ userToRemove),
     records := removeUserRecords s.records userToRemove },
   { users := s.users,
     records := removeUserRecords s.records userToRemove })

-- ## Association list lemmas

theorem lookupKey_nil {β : Type} (k : String) : lookupKey ([] : List (String × β)) k = none :=
  rfl

theorem lookupKey_cons {β : Type} (k₁ : String) (v : β) (t : List (String × β)) (k : String) :
    lookupKey ((k₁, v) :: t) k = if k₁ = k then some v else lookupKey t k :=
  rfl

theorem keysOf_cons {β : Type} (p : String × β) (t : List (String × β)) :
    keysOf (p :: t) = p.1 :: keysOf t :=
  rfl

theorem hasKey_iff_mem {β : Type} (l : List (String × β)) (k : String) :
    hasKey l k = true ↔ k ∈ keysOf l := by
  simp only [hasKey, keysOf, List.any_eq_true, decide_eq_true_eq, List.mem_map]

theorem lookupKey_eq_none {β : Type} {l : List (String × β)} {k : String}
    (h : k ∉ keysOf l) : lookupKey l k = none := by
  induction l with
  | nil => rfl
  | cons p t ih =>
    obtain ⟨k₁, v⟩ := p
    rw [keysOf_cons, List.mem_cons, not_or] at h
    rw [lookupKey_cons, if_neg (fun he => h.1 he.symm), ih h.2]

theorem lookupKey_append_sing_self {β : Type} {l : List (String × β)} {k : String} (v : β)
    (h : k ∉ keysOf l) : lookupKey (l ++ [(k, v)]) k = some v := by
  induction l with
  | nil => simp [lookupKey]
  | cons p t ih =>
    obtain ⟨k₁, v₁⟩ := p
    rw [keysOf_cons, List.mem_cons, not_or] at h
    rw [List.cons_append, lookupKey_cons, if_neg (fun he => h.1 he.symm), ih h.2]

theorem lookupKey_append_sing_other {β : Type} {l : List (String × β)} {k k' : String} (v : β)
    (h : k' ≠ k) : lookupKey (l ++ [(k, v)]) k' = lookupKey l k' := by
  induction l with
  | nil =>
    rw [List.nil_append, lookupKey_cons, if_neg (fun he => h he.symm)]
  | cons p t ih =>
    obtain ⟨k₁, v₁⟩ := p
    rw [List.cons_append, lookupKey_cons, lookupKey_cons]
    by_cases he : k₁ = k'
    · rw [if_pos he, if_pos he]
    · rw [if_neg he, if_neg he, ih]

theorem lookupKey_replace_self {β : Type} {l : List (String × β)} {k : String} (v : β)
    (h : k ∈ keysOf l) :
    lookupKey (l.map (fun p => if p.1 = k then (k, v) else p)) k = some v := by
  induction l with
  | nil => simp [keysOf] at h
  | cons p t ih =>
    obtain ⟨k₁, v₁⟩ := p
    rw [keysOf_cons, List.mem_cons] at h
    dsimp only [List.map]
    by_cases he : k₁ = k
    · rw [if_pos he, lookupKey_cons, if_pos rfl]
    · rw [if_neg he, lookupKey_cons, if_neg he]
      exact ih (h.resolve_left (fun hk => he hk.symm))

theorem lookupKey_replace_other {β : Type} {l : List (String × β)} {k k' : String} (v : β)
    (h : k' ≠ k) :
    lookupKey (l.map (fun p => if p.1 = k then (k, v) else p)) k' = lookupKey l k' := by
  induction l with
  | nil => rfl
  | cons p t ih =>
    obtain ⟨k₁, v₁⟩ := p
    dsimp only [List.map]
    by_cases he : k₁ = k
    · rw [if_pos he, lookupKey_cons, if_neg (fun hk => h hk.symm), ih,
        lookupKey_cons, if_neg (fun hk : k₁ = k' => h (hk.symm.trans he))]
    · rw [if_neg he, lookupKey_cons, ih, lookupKey_cons]

theorem lookupKey_setKey_self {β : Type} (l : List (String × β)) (k : String) (v : β) :
    lookupKey (setKey l k v) k = some v := by
  unfold setKey
  by_cases h : hasKey l k = true
  · rw [if_pos h]
    exact lookupKey_replace_self v ((hasKey_iff_mem l k).mp h)
  · rw [if_neg h]
    exact lookupKey_append_sing_self v (fun hm => h ((hasKey_iff_mem l k).mpr hm))

theorem lookupKey_setKey_other {β : Type} (l : List (String × β)) (k k' : String) (v : β)
    (h : k' ≠ k) : lookupKey (setKey l k v) k' = lookupKey l k' := by
  unfold setKey
  by_cases hh : hasKey l k = true
  · rw [if_pos hh]
    exact lookupKey_replace_other v h
  · rw [if_neg hh]
    exact lookupKey_append_sing_other v h

theorem lookupKey_mem {β : Type} {l : List (String × β)} {k : String} {v : β}
    (h : lookupKey l k = some v) : (k, v) ∈ l := by
  induction l with
  | nil => simp [lookupKey] at h
  | cons p t ih =>
    obtain ⟨k₁, v₁⟩ := p
    rw [lookupKey_cons] at h
    by_cases he : k₁ = k
    · rw [if_pos he] at h
      obtain rfl := Option.some.inj h
      rw [he]
      exact List.mem_cons_self _ _
    · rw [if_neg he] at h
      exact List.mem_cons_of_mem _ (ih h)

theorem keysOf_replace {β : Type} (l : List (String × β)) (k : String) (v : β) :
    keysOf (l.map (fun p => if p.1 = k then (k, v) else p)) = keysOf l := by
  induction l with
  | nil => rfl
  | cons p t ih =>
    dsimp only [List.map]
    by_cases he : p.1 = k
    · rw [if_pos he, keysOf_cons, keysOf_cons, ih, he]
    · rw [if_neg he, keysOf_cons, keysOf_cons, ih]

theorem setKey_keys_nodup {β : Type} {l : List (String × β)} (k : String) (v : β)
    (h : (keysOf l).Nodup) : (keysOf (setKey l k v)).Nodup := by
  unfold setKey
  by_cases hh : hasKey l k = true
  · rw [if_pos hh, keysOf_replace]
    exact h
  · rw [if_neg hh]
    have hk : k ∉ keysOf l := fun hm => hh ((hasKey_iff_mem l k).mpr hm)
    have : keysOf (l ++ [(k, v)]) = keysOf l ++ [k] := by simp [keysOf]
    rw [this]
    simp [List.nodup_append, h, hk]

theorem filter_keys_eq_nil {β : Type} {l : List (String × β)} {k : String}
    (h : k ∉ keysOf l) : l.filter (fun p => p.1 = k) = [] := by
  induction l with
  | nil => rfl
  | cons p t ih =>
    rw [keysOf_cons, List.mem_cons, not_or] at h
    rw [List.filter_cons_of_neg (by simpa using fun he => h.1 he.symm)]
    exact ih h.2

theorem filter_replace_self {β : Type} {l : List (String × β)} {k : String} (v : β)
    (h : (keysOf l).Nodup) (hmem : k ∈ keysOf l) :
    (l.map (fun p => if p.1 = k then (k, v) else p)).filter (fun p => p.1 = k) =
      [(k, v)] := by
  induction l with
  | nil => simp [keysOf] at hmem
  | cons p t ih =>
    obtain ⟨k₁, v₁⟩ := p
    rw [keysOf_cons] at h
    have hnd := List.nodup_cons.mp h
    dsimp only [List.map]
    by_cases he : k₁ = k
    · rw [if_pos he]
      rw [List.filter_cons_of_pos (by simp)]
      have hnt : k ∉ keysOf t := he ▸ hnd.1
      have hz : (List.map (fun p => if p.1 = k then (k, v) else p) t).filter
          (fun p => p.1 = k) = [] := by
        apply filter_keys_eq_nil
        rw [keysOf_replace]
        exact hnt
      rw [hz]
    · rw [if_neg he]
      rw [List.filter_cons_of_neg (by simpa using he)]
      have hmem2 : k ∈ keysOf t := by
        rw [keysOf_cons, List.mem_cons] at hmem
        exact hmem.resolve_left (fun hk => he hk.symm)
      exact ih hnd.2 hmem2

theorem filter_setKey_self {β : Type} {l : List (String × β)} (k : String) (v : β)
    (h : (keysOf l).Nodup) :
    (setKey l k v).filter (fun p => p.1 = k) = [(k, v)] := by
  unfold setKey
  by_cases hh : hasKey l k = true
  · rw [if_pos hh]
    exact filter_replace_self v h ((hasKey_iff_mem l k).mp hh)
  · rw [if_neg hh]
    have hk : k ∉ keysOf l := fun hm => hh ((hasKey_iff_mem l k).mpr hm)
    rw [List.filter_append, filter_keys_eq_nil hk]
    simp

-- ## C1: purity of remove (violated by the source)

/-- A published store with check-ins for members A and B. -/
def exStoreC1 : Store :=
  { users := ["A", "B"], records := [("2024-05-01", [("A", 3), ("B", 2)])] }

/-- C1: the operations are specified as pure (never mutating the input
    store), but `handleRemoveUser` is not: its shallow copy
    `{ ...prevData.records }` shares the per-date sub-map objects with the
    previously published store, and `delete newRecords[date][userToRemove]`
    removes the member's keys from those shared objects. Evaluated at a
    concrete store: after removing A, the previously published store value
    has changed (its 2024-05-01 sub-map lost the binding A ↦ 3). -/
theorem removeUser_mutates_published_store :
    (handleRemoveUser exStoreC1 "A").2 ≠ exStoreC1 := by
  decide

-- ## C8: duplicate add_member

/-- C8: `handleAddUser` on a name already present signals `DuplicateMember`
    and returns with the store unchanged. -/
theorem addUser_duplicate (s : Store) (name : String) (h : name ∈ s.users) :
    handleAddUser s name = (s, some MutationError.duplicateMember) := by
  unfold handleAddUser
  rw [if_pos h]

/-- Witness for C8 at a concrete store. -/
theorem addUser_duplicate_witness :
    handleAddUser { users := ["A", "B"], records := [] } "A" =
      ({ users := ["A", "B"], records := [] }, some MutationError.duplicateMember) :=
  addUser_duplicate { users := ["A", "B"], records := [] } "A" (by decide)

-- ## C7: check-in validation

/-- C7 (amended): the check-in boundary signals `InvalidChapters` (an
    alert) for a missing chapters value or a count below 1 and leaves the
    store unchanged; but no `UnknownMember` signal exists anywhere in the
    code — submitting a non-empty member name that is not in `store.users`
    succeeds with no signal and records an entry under that name. -/
theorem checkIn_boundary (s : Store) (today selectedUser : String) (c : Int)
    (hu : selectedUser ≠ "") :
    (∀ c' : Int, c' < 1 →
      checkInSubmit s today selectedUser (some c') = (s, some MutationError.invalidChapters)) ∧
    checkInSubmit s today selectedUser none = (s, some MutationError.invalidChapters) ∧
    (1 ≤ c → selectedUser ∉ s.users →
      checkInSubmit s today selectedUser (some c) =
        (handleCheckIn s today selectedUser c, none) ∧
      entryVal (handleCheckIn s today selectedUser c).records today selectedUser = some c) := by
  refine ⟨?_, rfl, ?_⟩
  · intro c' hc'
    unfold checkInSubmit
    dsimp only
    rw [if_pos (Or.inr (by omega : c' ≤ 0))]
  · intro hc _
    constructor
    · unfold checkInSubmit
      dsimp only
      rw [if_neg (by push_neg; exact ⟨hu, by omega⟩)]
    · unfold handleCheckIn entryVal
      dsimp only
      rw [lookupKey_setKey_self]
      simp only [Option.some_bind]
      rw [lookupKey_setKey_self]

/-- Witness for C7's amended statement at a concrete store: chapters 0 is
    rejected with the store unchanged, while an unknown member's check-in
    passes with no signal and creates the entry. -/
theorem checkIn_boundary_witness :
    checkInSubmit { users := ["A"], records := [] } "2024-05-06" "Zed" (some 0) =
      ({ users := ["A"], records := [] }, some MutationError.invalidChapters) ∧
    checkInSubmit { users := ["A"], records := [] } "2024-05-06" "Zed" (some 4) =
      (handleCheckIn { users := ["A"], records := [] } "2024-05-06" "Zed" 4, none) ∧
    entryVal (handleCheckIn { users := ["A"], records := [] } "2024-05-06" "Zed" 4).records
      "2024-05-06" "Zed" = some 4 := by
  have h := checkIn_boundary { users := ["A"], records := [] } "2024-05-06" "Zed" 4
    (by decide)
  exact ⟨h.1 0 (by decide), (h.2.2 (by decide) (by decide)).1, (h.2.2 (by decide) (by decide)).2⟩

/-- C7 counterexample (the claim as stated): checking in a member that is
    not in `store.users` produces no signal of any kind — there is no
    `UnknownMember` check in the code — and the store is not left
    unchanged: an entry for the unknown name is created. -/
theorem checkIn_unknownMember_counterexample :
    ("Nemo" ∉ Store.users { users := ["A"], records := [] }) ∧
    (checkInSubmit { users := ["A"], records := [] } "2024-05-06" "Nemo" (some 4)).2 = none ∧
    (checkInSubmit { users := ["A"], records := [] } "2024-05-06" "Nemo" (some 4)).1 ≠
      { users := ["A"], records := [] } := by
  decide

-- ## C5: same-day double check-in is an overwrite

/-- C5: performing `handleCheckIn(member, c1)` and then
    `handleCheckIn(member, c2)` on the same day yields a store whose
    sub-map for that day holds exactly one binding for the member, equal to
    c2 (last-write-wins, not accumulation); the bindings of every other
    member that day and the sub-maps of every other date are unchanged.
    (JS objects have unique keys, hence the no-duplicate-keys hypothesis
    on the stored sub-maps.) -/
theorem checkIn_twice_overwrites (s : Store) (today user : String) (c1 c2 : Int)
    (hc1 : 1 ≤ c1) (hc2 : 1 ≤ c2)
    (hsub : ∀ p ∈ s.records, (keysOf p.2).Nodup) :
    (((lookupKey (handleCheckIn (handleCheckIn s today user c1) today user c2).records
        today).getD []).filter (fun p => p.1 = user) = [(user, c2)]) ∧
    (∀ u, u ≠ user →
      lookupKey ((lookupKey (handleCheckIn (handleCheckIn s today user c1) today user
          c2).records today).getD []) u =
        lookupKey ((lookupKey s.records today).getD []) u) ∧
    (∀ date, date ≠ today →
      lookupKey (handleCheckIn (handleCheckIn s today user c1) today user c2).records date =
        lookupKey s.records date) := by
  have hsub0 : (keysOf ((lookupKey s.records today).getD [])).Nodup := by
    cases hl : lookupKey s.records today with
    | none => simp [keysOf]
    | some sub =>
      simp only [Option.getD_some]
      exact hsub (today, sub) (lookupKey_mem hl)
  simp only [handleCheckIn]
  rw [lookupKey_setKey_self]
  simp only [Option.getD_some]
  refine ⟨?_, ?_, ?_⟩
  · rw [lookupKey_setKey_self]
    simp only [Option.getD_some]
    exact filter_setKey_self user c2 (setKey_keys_nodup user c1 hsub0)
  · intro u hu
    rw [lookupKey_setKey_self]
    simp only [Option.getD_some]
    rw [lookupKey_setKey_other _ _ _ _ hu, lookupKey_setKey_other _ _ _ _ hu]
  · intro date hdate
    rw [lookupKey_setKey_other _ _ _ _ hdate, lookupKey_setKey_other _ _ _ _ hdate]

/-- Witness for C5: checking in B with 2 then 5 chapters on 2024-05-06
    leaves exactly the binding B ↦ 5 that day, A's entry of the previous
    day untouched. -/
theorem checkIn_twice_overwrites_witness :
    (((lookupKey (handleCheckIn (handleCheckIn
        { users := ["A", "B"], records := [("2024-05-05", [("A", 7)])] }
        "2024-05-06" "B" 2) "2024-05-06" "B" 5).records "2024-05-06").getD []).filter
      (fun p => p.1 = "B") = [("B", 5)]) ∧
    lookupKey ((lookupKey (handleCheckIn (handleCheckIn
        { users := ["A", "B"], records := [("2024-05-05", [("A", 7)])] }
        "2024-05-06" "B" 2) "2024-05-06" "B" 5).records "2024-05-06").getD []) "A" =
      lookupKey ((lookupKey (Store.records
        { users := ["A", "B"], records := [("2024-05-05", [("A", 7)])] })
        "2024-05-06").getD []) "A" ∧
    lookupKey (handleCheckIn (handleCheckIn
        { users := ["A", "B"], records := [("2024-05-05", [("A", 7)])] }
        "2024-05-06" "B" 2) "2024-05-06" "B" 5).records "2024-05-05" =
      lookupKey (Store.records
        { users := ["A", "B"], records := [("2024-05-05", [("A", 7)])] }) "2024-05-05" := by
  have h := checkIn_twice_overwrites
    { users := ["A", "B"], records := [("2024-05-05", [("A", 7)])] }
    "2024-05-06" "B" 2 5 (by decide) (by decide) (by decide)
  exact ⟨h.1, h.2.1 "A" (by decide), h.2.2 "2024-05-05" (by decide)⟩

-- ## Monthly leaderboard (`MonthlyLeaderboard.monthlyStats`)

/-- One row of the leaderboard. -/
structure MonthRow where
  user : String
  total : Int
  consecutiveDays : Nat
  deriving DecidableEq, Repr

/-- `const totals = {}; users.forEach(user => totals[user] = 0);`. -/
def initTotals (users : List String) : List (String × Int) :=
  users.foldl (fun tot u => setKey tot u 0) []

/-- The inner accumulation loop:
    `for (const user in records[date]) if (totals.hasOwnProperty(user)) totals[user] += records[date][user];`. -/
def addDayTotals (tot : List (String × Int)) (sub : DayMap) : List (String × Int) :=
  sub.foldl (fun tot p =>
    if hasKey tot p.1 then
      tot.map (fun q => if q.1 = p.1 then (q.1, q.2 + p.2) else q)
    else tot) tot

/-- `monthlyStats` of `MonthlyLeaderboard`: zero-initialised per-member
    totals, accumulated over the dates of the current month, turned into
    rows with streaks by `Object.entries(totals).map(...)`, then sorted by
    `sort((a, b) => b.total - a.total)` — a stable sort descending on
    `total`, modelled by `mergeSort`. -/
def monthTotals (users : List String) (records : Records) (month : String) :
    List (String × Int) :=
  records.foldl (fun tot p =>
    if getMonthFromDateString p.1 = month then addDayTotals tot p.2 else tot)
    (initTotals users)

def monthlyStats (users : List String) (records : Records) (today : Date) : List MonthRow :=
  let currentMonth := getMonthFromDateString (getTodayDateString today)
  ((monthTotals users records currentMonth).map (fun p =>
    { user := p.1, total := p.2,
      consecutiveDays := calculateConsecutiveDays p.1 records today })).mergeSort
    (fun a b => b.total ≤ a.total)

/-- Specification-side monthly total, from the spec's words: the sum of
    `entries[date][member]` over all dates whose month key equals the
    month, for comparison against the implementation's accumulator. -/
def specMonthTotal (records : Records) (month : String) (u : String) : Int :=
  (records.map (fun p =>
    if getMonthFromDateString p.1 = month then (lookupKey p.2 u).getD 0 else 0)).sum

-- ## Lookup/keys auxiliary lemmas

theorem lookupKey_isSome_of_mem {β : Type} {l : List (String × β)} {k : String}
    (h : k ∈ keysOf l) : ∃ v, lookupKey l k = some v := by
  induction l with
  | nil => simp [keysOf] at h
  | cons p t ih =>
    obtain ⟨k₁, v₁⟩ := p
    rw [lookupKey_cons]
    by_cases he : k₁ = k
    · exact ⟨v₁, if_pos he⟩
    · rw [keysOf_cons, List.mem_cons] at h
      rw [if_neg he]
      exact ih (h.resolve_left (fun hk => he hk.symm))

theorem lookupKey_none_iff {β : Type} (l : List (String × β)) (k : String) :
    lookupKey l k = none ↔ k ∉ keysOf l := by
  constructor
  · intro h hm
    obtain ⟨v, hv⟩ := lookupKey_isSome_of_mem hm
    rw [h] at hv
    exact Option.noConfusion hv
  · exact lookupKey_eq_none

theorem lookupKey_map_values {β : Type} (g : β → β) (l : List (String × β)) (k : String) :
    lookupKey (l.map (fun p => (p.1, g p.2))) k = (lookupKey l k).map g := by
  induction l with
  | nil => rfl
  | cons p t ih =>
    obtain ⟨k₁, v₁⟩ := p
    dsimp only [List.map]
    rw [lookupKey_cons, lookupKey_cons]
    by_cases he : k₁ = k
    · rw [if_pos he, if_pos he]
      rfl
    · rw [if_neg he, if_neg he, ih]

theorem lookupKey_filter_prop {β : Type} (P : String → Prop) [DecidablePred P]
    {l : List (String × β)} {k : String} (hP : P k) :
    lookupKey (l.filter (fun p => P p.1)) k = lookupKey l k := by
  induction l with
  | nil => rfl
  | cons p t ih =>
    obtain ⟨k₁, v₁⟩ := p
    by_cases hp : P k₁
    · rw [List.filter_cons_of_pos (by simpa using hp), lookupKey_cons, lookupKey_cons]
      by_cases he : k₁ = k
      · rw [if_pos he, if_pos he]
      · rw [if_neg he, if_neg he, ih]
    · rw [List.filter_cons_of_neg (by simpa using hp), lookupKey_cons,
        if_neg (fun he : k₁ = k => hp (he.symm ▸ hP)), ih]

theorem lookupKey_of_nodup_mem {β : Type} {l : List (String × β)} {k : String} {v : β}
    (hnd : (keysOf l).Nodup) (h : (k, v) ∈ l) : lookupKey l k = some v := by
  induction l with
  | nil => simp at h
  | cons p t ih =>
    obtain ⟨k₁, v₁⟩ := p
    rw [keysOf_cons] at hnd
    have hc := List.nodup_cons.mp hnd
    rw [List.mem_cons] at h
    rw [lookupKey_cons]
    rcases h with heq | hmem
    · injection heq with h1 h2
      rw [if_pos h1.symm, h2]
    · by_cases he : k₁ = k
      · refine absurd (?_ : k₁ ∈ keysOf t) hc.1
        rw [he]
        unfold keysOf
        exact List.mem_map_of_mem _ hmem
      · rw [if_neg he]
        exact ih hc.2 hmem

theorem mem_keysOf_setKey {β : Type} (l : List (String × β)) (k k' : String) (v : β) :
    k' ∈ keysOf (setKey l k v) ↔ k' ∈ keysOf l ∨ k' = k := by
  unfold setKey
  by_cases hh : hasKey l k = true
  · rw [if_pos hh, keysOf_replace]
    constructor
    · exact Or.inl
    · rintro (hm | rfl)
      · exact hm
      · exact (hasKey_iff_mem l k').mp hh
  · rw [if_neg hh]
    have : keysOf (l ++ [(k, v)]) = keysOf l ++ [k] := by simp [keysOf]
    rw [this]
    simp [List.mem_append]

theorem foldl_setKey0_lookup (users : List String) (u : String) :
    ∀ acc : List (String × Int),
      lookupKey (users.foldl (fun t x => setKey t x 0) acc) u =
        if u ∈ users then some 0 else lookupKey acc u := by
  induction users with
  | nil => intro acc; simp
  | cons x rest ih =>
    intro acc
    dsimp only [List.foldl]
    rw [ih]
    by_cases hr : u ∈ rest
    · rw [if_pos hr, if_pos (List.mem_cons.mpr (Or.inr hr))]
    · rw [if_neg hr]
      by_cases hx : u = x
      · rw [if_pos (List.mem_cons.mpr (Or.inl hx)), hx, lookupKey_setKey_self]
      · rw [if_neg (fun hm => (List.mem_cons.mp hm).elim hx hr),
          lookupKey_setKey_other _ _ _ _ hx]

theorem initTotals_lookup {users : List String} {u : String} (h : u ∈ users) :
    lookupKey (initTotals users) u = some 0 := by
  unfold initTotals
  rw [foldl_setKey0_lookup, if_pos h]

theorem mem_keysOf_initTotals (users : List String) (u : String) :
    u ∈ keysOf (initTotals users) ↔ u ∈ users := by
  constructor
  · intro hm
    obtain ⟨v, hv⟩ := lookupKey_isSome_of_mem hm
    by_contra hnu
    rw [initTotals, foldl_setKey0_lookup, if_neg hnu] at hv
    exact Option.noConfusion hv
  · intro h
    exact lookupKey_some_mem (initTotals_lookup h)

theorem initTotals_keys_nodup (users : List String) :
    (keysOf (initTotals users)).Nodup := by
  unfold initTotals
  have hgen : ∀ (us : List String) (acc : List (String × Int)), (keysOf acc).Nodup →
      (keysOf (us.foldl (fun t x => setKey t x 0) acc)).Nodup := by
    intro us
    induction us with
    | nil => intro acc h; exact h
    | cons x rest ih =>
      intro acc h
      exact ih _ (setKey_keys_nodup x 0 h)
  exact hgen users [] (by simp [keysOf])

theorem keysOf_setKey_not_mem {β : Type} {l : List (String × β)} {k : String} (v : β)
    (h : k ∉ keysOf l) : keysOf (setKey l k v) = keysOf l ++ [k] := by
  unfold setKey
  rw [if_neg (fun hh => h ((hasKey_iff_mem l k).mp hh))]
  simp [keysOf]

theorem initTotals_keys_of_nodup {users : List String} (h : users.Nodup) :
    keysOf (initTotals users) = users := by
  unfold initTotals
  have hgen : ∀ (us : List String) (acc : List (String × Int)), us.Nodup →
      (∀ x ∈ us, x ∉ keysOf acc) →
      keysOf (us.foldl (fun t x => setKey t x 0) acc) = keysOf acc ++ us := by
    intro us
    induction us with
    | nil => intro acc _ _; simp
    | cons x rest ih =>
      intro acc hnd hdisj
      have hx : x ∉ keysOf acc := hdisj x (List.mem_cons_self _ _)
      have hc := List.nodup_cons.mp hnd
      dsimp only [List.foldl]
      rw [ih (setKey acc x 0) hc.2 ?_]
      · rw [keysOf_setKey_not_mem 0 hx, List.append_assoc]
        rfl
      · intro y hy hmem
        rcases (mem_keysOf_setKey acc x y 0).mp hmem with hya | rfl
        · exact hdisj y (List.mem_cons_of_mem _ hy) hya
        · exact hc.1 hy
  have := hgen users [] h (by simp [keysOf])
  simpa [keysOf] using this

theorem keysOf_map_fst_preserved {β : Type} (g : (String × β) → (String × β))
    (hg : ∀ p, (g p).1 = p.1) (l : List (String × β)) :
    keysOf (l.map g) = keysOf l := by
  unfold keysOf
  rw [List.map_map]
  exact List.map_congr_left (fun p _ => hg p)

theorem lookupKey_add_at_self (tot : List (String × Int)) (x : String) (w : Int) :
    lookupKey (tot.map (fun q => if q.1 = x then (q.1, q.2 + w) else q)) x =
      (lookupKey tot x).map (fun t => t + w) := by
  induction tot with
  | nil => rfl
  | cons p t ih =>
    obtain ⟨k₁, v₁⟩ := p
    dsimp only [List.map]
    by_cases he : k₁ = x
    · rw [if_pos he]
      rw [lookupKey_cons, lookupKey_cons, if_pos he, if_pos he]
      rfl
    · rw [if_neg he]
      rw [lookupKey_cons, lookupKey_cons, if_neg he, if_neg he, ih]

theorem lookupKey_add_at_other (tot : List (String × Int)) (x : String) (w : Int)
    {u : String} (hu : u ≠ x) :
    lookupKey (tot.map (fun q => if q.1 = x then (q.1, q.2 + w) else q)) u =
      lookupKey tot u := by
  induction tot with
  | nil => rfl
  | cons p t ih =>
    obtain ⟨k₁, v₁⟩ := p
    dsimp only [List.map]
    by_cases he : k₁ = x
    · rw [if_pos he]
      rw [lookupKey_cons, lookupKey_cons,
        if_neg (fun hk : k₁ = u => hu (hk.symm.trans he)),
        if_neg (fun hk : k₁ = u => hu (hk.symm.trans he)), ih]
    · rw [if_neg he]
      rw [lookupKey_cons, lookupKey_cons, ih]

theorem addDayTotals_keys (sub : DayMap) :
    ∀ tot : List (String × Int), keysOf (addDayTotals tot sub) = keysOf tot := by
  induction sub with
  | nil => intro tot; rfl
  | cons p rest ih =>
    intro tot
    show keysOf (addDayTotals (if hasKey tot p.1 then
      tot.map (fun q => if q.1 = p.1 then (q.1, q.2 + p.2) else q) else tot) rest) = _
    rw [ih]
    by_cases hh : hasKey tot p.1 = true
    · rw [if_pos hh]
      exact keysOf_map_fst_preserved _ (fun q => by by_cases hq : q.1 = p.1 <;> simp [hq]) tot
    · rw [if_neg hh]

theorem addDayTotals_value (u : String) (sub : DayMap) :
    ∀ tot : List (String × Int), u ∈ keysOf tot → (keysOf sub).Nodup →
    (lookupKey (addDayTotals tot sub) u).getD 0 =
      (lookupKey tot u).getD 0 + (lookupKey sub u).getD 0 := by
  induction sub with
  | nil => intro tot _ _; simp [addDayTotals, lookupKey]
  | cons p rest ih =>
    intro tot hu hnd
    obtain ⟨name, w⟩ := p
    rw [keysOf_cons] at hnd
    have hc := List.nodup_cons.mp hnd
    show (lookupKey (addDayTotals (if hasKey tot name then
      tot.map (fun q => if q.1 = name then (q.1, q.2 + w) else q) else tot) rest) u).getD 0 = _
    by_cases hh : hasKey tot name = true
    · rw [if_pos hh]
      have hkeys := keysOf_map_fst_preserved
        (fun q => if q.1 = name then (q.1, q.2 + w) else q)
        (fun q => by by_cases hq : q.1 = name <;> simp [hq]) tot
      rw [ih _ (hkeys ▸ hu) hc.2]
      by_cases hun : u = name
      · subst hun
        rw [lookupKey_add_at_self]
        obtain ⟨t0, ht0⟩ := lookupKey_isSome_of_mem hu
        rw [ht0]
        rw [lookupKey_eq_none hc.1]
        rw [lookupKey_cons, if_pos rfl]
        simp
      · rw [lookupKey_add_at_other _ _ _ hun]
        rw [lookupKey_cons, if_neg (fun he => hun he.symm)]
    · rw [if_neg hh]
      have hun : u ≠ name := fun he => hh ((hasKey_iff_mem tot name).mpr (he ▸ hu))
      rw [ih _ hu hc.2]
      rw [lookupKey_cons, if_neg (fun he => hun he.symm)]

theorem monthTotals_keys (users : List String) (records : Records) (month : String) :
    keysOf (monthTotals users records month) = keysOf (initTotals users) := by
  unfold monthTotals
  have hgen : ∀ (recs : Records) (acc : List (String × Int)),
      keysOf (recs.foldl (fun tot p =>
        if getMonthFromDateString p.1 = month then addDayTotals tot p.2 else tot) acc) =
        keysOf acc := by
    intro recs
    induction recs with
    | nil => intro acc; rfl
    | cons p rest ih =>
      intro acc
      dsimp only [List.foldl]
      rw [ih]
      by_cases hm : getMonthFromDateString p.1 = month
      · rw [if_pos hm, addDayTotals_keys]
      · rw [if_neg hm]
  exact hgen records (initTotals users)

theorem monthTotals_value (users : List String) (records : Records) (month : String)
    (u : String) (hu : u ∈ users) (hsubs : ∀ p ∈ records, (keysOf p.2).Nodup) :
    (lookupKey (monthTotals users records month) u).getD 0 =
      specMonthTotal records month u := by
  unfold monthTotals
  have hgen : ∀ (recs : Records) (acc : List (String × Int)), u ∈ keysOf acc →
      (∀ p ∈ recs, (keysOf p.2).Nodup) →
      (lookupKey (recs.foldl (fun tot p =>
        if getMonthFromDateString p.1 = month then addDayTotals tot p.2 else tot) acc)
        u).getD 0 =
        (lookupKey acc u).getD 0 + specMonthTotal recs month u := by
    intro recs
    induction recs with
    | nil => intro acc _ _; simp [specMonthTotal]
    | cons p rest ih =>
      intro acc hacc hnds
      have hspec : specMonthTotal (p :: rest) month u =
          (if getMonthFromDateString p.1 = month then (lookupKey p.2 u).getD 0 else 0) +
            specMonthTotal rest month u := by
        unfold specMonthTotal
        rw [List.map_cons, List.sum_cons]
      rw [hspec]
      dsimp only [List.foldl]
      by_cases hm : getMonthFromDateString p.1 = month
      · rw [if_pos hm, if_pos hm]
        rw [ih _ ((addDayTotals_keys p.2 acc).symm ▸ hacc)
          (fun q hq => hnds q (List.mem_cons_of_mem _ hq))]
        rw [addDayTotals_value u p.2 acc hacc (hnds p (List.mem_cons_self _ _))]
        omega
      · rw [if_neg hm, if_neg hm]
        rw [ih _ hacc (fun q hq => hnds q (List.mem_cons_of_mem _ hq))]
        omega
  have := hgen records (initTotals users) ((mem_keysOf_initTotals users u).mpr hu) hsubs
  rw [initTotals_lookup hu] at this
  simpa using this

/-- C4: for every store (unique member names, unique keys per day as JS
    objects guarantee), `monthlyStats` has exactly one row per member of
    `store.users` (its row users are a permutation of `users`); each row's
    total is the sum of `entries[date][member]` over the dates of the
    current month (0 when absent) with the streak column computed over the
    full record store; and the rows are ordered descending by total. -/
theorem monthlyStats_report (users : List String) (records : Records) (today : Date)
    (husers : users.Nodup)
    (hsubs : ∀ p ∈ records, (keysOf p.2).Nodup) :
    ((monthlyStats users records today).map (fun r => r.user)).Perm users ∧
    (∀ row ∈ monthlyStats users records today,
      row.total = specMonthTotal records
        (getMonthFromDateString (getTodayDateString today)) row.user ∧
      row.consecutiveDays = calculateConsecutiveDays row.user records today) ∧
    List.Pairwise (fun a b => b.total ≤ a.total) (monthlyStats users records today) := by
  have hkeys : keysOf (monthTotals users records
      (getMonthFromDateString (getTodayDateString today))) = users := by
    rw [monthTotals_keys, initTotals_keys_of_nodup husers]
  have hknd : (keysOf (monthTotals users records
      (getMonthFromDateString (getTodayDateString today)))).Nodup := by
    rw [monthTotals_keys]
    exact initTotals_keys_nodup users
  have hperm := List.mergeSort_perm
    ((monthTotals users records (getMonthFromDateString (getTodayDateString today))).map
      (fun p => MonthRow.mk p.1 p.2 (calculateConsecutiveDays p.1 records today)))
    (fun a b => decide (b.total ≤ a.total))
  have hunfold : monthlyStats users records today =
      ((monthTotals users records (getMonthFromDateString (getTodayDateString today))).map
        (fun p => MonthRow.mk p.1 p.2 (calculateConsecutiveDays p.1 records today))).mergeSort
        (fun a b => decide (b.total ≤ a.total)) := rfl
  refine ⟨?_, ?_, ?_⟩
  · rw [hunfold]
    have h1 := hperm.map (fun r => r.user)
    refine h1.trans ?_
    rw [List.map_map]
    have : ((fun r => MonthRow.user r) ∘ fun p =>
        MonthRow.mk p.1 p.2 (calculateConsecutiveDays p.1 records today)) =
        (fun p : String × Int => p.1) := rfl
    rw [this]
    rw [show (List.map (fun p : String × Int => p.1)
      (monthTotals users records (getMonthFromDateString (getTodayDateString today))) =
      keysOf (monthTotals users records
        (getMonthFromDateString (getTodayDateString today)))) from rfl]
    rw [hkeys]
  · intro row hrow
    rw [hunfold] at hrow
    rw [hperm.mem_iff] at hrow
    rw [List.mem_map] at hrow
    obtain ⟨p, hp, rfl⟩ := hrow
    refine ⟨?_, rfl⟩
    have hmemk : p.1 ∈ keysOf (monthTotals users records
        (getMonthFromDateString (getTodayDateString today))) := by
      unfold keysOf
      exact List.mem_map_of_mem _ hp
    have hlook := lookupKey_of_nodup_mem hknd
      (show (p.1, p.2) ∈ monthTotals users records
        (getMonthFromDateString (getTodayDateString today)) from hp)
    have hval := monthTotals_value users records
      (getMonthFromDateString (getTodayDateString today)) p.1
      (hkeys ▸ hmemk) hsubs
    rw [hlook] at hval
    exact (by simpa using hval : p.2 = _)
  · rw [hunfold]
    have hsorted := @List.sorted_mergeSort MonthRow
      (fun a b : MonthRow => decide (b.total ≤ a.total))
      (fun a b c h1 h2 => by
        simp only [decide_eq_true_eq] at h1 h2 ⊢
        omega)
      (fun a b => by
        simp only [Bool.or_eq_true, decide_eq_true_eq]
        omega)
      ((monthTotals users records (getMonthFromDateString (getTodayDateString today))).map
        (fun p => MonthRow.mk p.1 p.2 (calculateConsecutiveDays p.1 records today)))
    exact hsorted.imp (fun h => by simpa using h)

/-- The record store of the spec's worked example. -/
def exReportRecords : Records :=
  [("2024-05-01", [("A", 3)]), ("2024-05-02", [("A", 2), ("B", 1)])]

unseal List.merge List.mergeSort in
/-- Witness for C4 at the spec's worked example: members A and B, May 2024
    totals 5 and 1, today 2024-05-06 (so both streaks are 0). -/
theorem monthlyStats_report_witness :
    ((monthlyStats ["A", "B"] exReportRecords ⟨2024, 5, 6⟩).map (fun r => r.user)).Perm
      ["A", "B"] ∧
    (MonthRow.mk "A" 5 0).total = specMonthTotal exReportRecords
      (getMonthFromDateString (getTodayDateString ⟨2024, 5, 6⟩)) (MonthRow.mk "A" 5 0).user ∧
    List.Pairwise (fun a b => b.total ≤ a.total)
      (monthlyStats ["A", "B"] exReportRecords ⟨2024, 5, 6⟩) :=
  have h := monthlyStats_report ["A", "B"] exReportRecords ⟨2024, 5, 6⟩
    (by decide) (by decide)
  ⟨h.1, (h.2.1 (MonthRow.mk "A" 5 0) (by decide)).1, h.2.2⟩

-- ## C6: remove_member leaves no residue

theorem monthlyStats_user_mem (users : List String) (records : Records) (today : Date) :
    ∀ row ∈ monthlyStats users records today, row.user ∈ users := by
  intro row hrow
  have hunfold : monthlyStats users records today =
      ((monthTotals users records (getMonthFromDateString (getTodayDateString today))).map
        (fun p => MonthRow.mk p.1 p.2 (calculateConsecutiveDays p.1 records today))).mergeSort
        (fun a b => decide (b.total ≤ a.total)) := rfl
  rw [hunfold, (List.mergeSort_perm _ _).mem_iff, List.mem_map] at hrow
  obtain ⟨p, hp, rfl⟩ := hrow
  have hmemk : p.1 ∈ keysOf (monthTotals users records
      (getMonthFromDateString (getTodayDateString today))) := by
    unfold keysOf
    exact List.mem_map_of_mem _ hp
  rw [monthTotals_keys, mem_keysOf_initTotals] at hmemk
  exact hmemk

theorem removeFromDay_not_mem {sub : DayMap} {u : String}
    (hvals : ∀ q ∈ sub, 1 ≤ q.2) : u ∉ keysOf (removeFromDay sub u) := by
  unfold removeFromDay
  cases hl : lookupKey sub u with
  | none => exact (lookupKey_none_iff sub u).mp hl
  | some v =>
    have hv : 1 ≤ v := hvals (u, v) (lookupKey_mem hl)
    dsimp only
    rw [if_pos (by omega : v ≠ 0)]
    intro hm
    unfold deleteKey keysOf at hm
    rw [List.mem_map] at hm
    obtain ⟨p, hp, rfl⟩ := hm
    have := List.of_mem_filter hp
    simp at this

/-- C6: after `handleRemoveUser(name)` (with the spec's invariant that every
    stored count is at least 1), the name is gone from `users`, no per-date
    sub-map of the new store holds a key for the name, and no
    `monthlyStats` row over the new store mentions it. -/
theorem removeUser_no_residue (s : Store) (name : String) (today : Date)
    (hmem : name ∈ s.users)
    (hvals : ∀ p ∈ s.records, ∀ q ∈ p.2, 1 ≤ q.2) :
    name ∉ (handleRemoveUser s name).1.users ∧
    (∀ p ∈ (handleRemoveUser s name).1.records, name ∉ keysOf p.2) ∧
    (∀ row ∈ monthlyStats (handleRemoveUser s name).1.users
        (handleRemoveUser s name).1.records today, row.user ≠ name) := by
  have husers : name ∉ (handleRemoveUser s name).1.users := by
    unfold handleRemoveUser
    intro hm
    have := List.of_mem_filter hm
    simp at this
  refine ⟨husers, ?_, ?_⟩
  · intro p hp
    unfold handleRemoveUser removeUserRecords at hp
    dsimp only at hp
    rw [List.mem_map] at hp
    obtain ⟨q, hq, rfl⟩ := hp
    exact removeFromDay_not_mem (hvals q hq)
  · intro row hrow heq
    have := monthlyStats_user_mem _ _ _ row hrow
    rw [heq] at this
    exact husers this

/-- Witness for C6 at a concrete store. -/
theorem removeUser_no_residue_witness :
    "A" ∉ (handleRemoveUser exStoreC1 "A").1.users ∧
    (∀ p ∈ (handleRemoveUser exStoreC1 "A").1.records, "A" ∉ keysOf p.2) ∧
    (∀ row ∈ monthlyStats (handleRemoveUser exStoreC1 "A").1.users
        (handleRemoveUser exStoreC1 "A").1.records ⟨2024, 5, 6⟩, row.user ≠ "A") :=
  removeUser_no_residue exStoreC1 "A" ⟨2024, 5, 6⟩ (by decide) (by decide)

-- ## C10: orphan entries are ignored by the leaderboard

/-- The store's records with every entry keyed by a non-member removed: the
    clean store C10 compares the implementation's behaviour against. -/
def orphanFree (users : List String) (records : Records) : Records :=
  records.map (fun p => (p.1, p.2.filter (fun q => q.1 ∈ users)))

theorem consecutiveFrom_congr {r1 r2 : Records} {u : String}
    (h : ∀ key, hasEntryB r1 key u = hasEntryB r2 key u) :
    ∀ (fuel : Nat) (d : Date), consecutiveFrom r1 u d fuel = consecutiveFrom r2 u d fuel := by
  intro fuel
  induction fuel with
  | zero => intro d; rfl
  | succ fuel ih =>
    intro d
    unfold consecutiveFrom
    rw [h (toKey d)]
    by_cases hb : hasEntryB r2 (toKey d) u = true
    · rw [if_pos hb, if_pos hb, ih]
    · rw [if_neg hb, if_neg hb]

theorem hasEntryB_orphanFree (users : List String) (records : Records)
    {u : String} (hu : u ∈ users) (key : String) :
    hasEntryB records key u = hasEntryB (orphanFree users records) key u := by
  unfold hasEntryB orphanFree
  rw [lookupKey_map_values (fun sub => sub.filter (fun q => q.1 ∈ users)) records key]
  cases hl : lookupKey records key with
  | none => rfl
  | some sub =>
    simp only [Option.map_some']
    rw [lookupKey_filter_prop (fun x => x ∈ users) hu]

theorem calculateConsecutiveDays_orphanFree (users : List String) (records : Records)
    {u : String} (hu : u ∈ users) (today : Date) :
    calculateConsecutiveDays u records today =
      calculateConsecutiveDays u (orphanFree users records) today := by
  unfold calculateConsecutiveDays
  have hlen : (orphanFree users records).length = records.length := by
    unfold orphanFree
    exact List.length_map _ _
  rw [hlen]
  exact consecutiveFrom_congr (hasEntryB_orphanFree users records hu) _ today

theorem addDayTotals_filter (users : List String) (sub : DayMap) :
    ∀ tot : List (String × Int), (∀ x, x ∈ keysOf tot ↔ x ∈ users) →
    addDayTotals tot sub = addDayTotals tot (sub.filter (fun q => q.1 ∈ users)) := by
  induction sub with
  | nil => intro tot _; rfl
  | cons q rest ih =>
    intro tot hkeys
    by_cases hq : q.1 ∈ users
    · rw [List.filter_cons_of_pos (by simpa using hq)]
      show addDayTotals (if hasKey tot q.1 then _ else tot) rest =
        addDayTotals (if hasKey tot q.1 then _ else tot) (rest.filter _)
      have hh : hasKey tot q.1 = true := (hasKey_iff_mem tot q.1).mpr ((hkeys q.1).mpr hq)
      rw [if_pos hh]
      apply ih
      intro x
      rw [← hkeys x]
      constructor
      · intro hm
        rw [keysOf_map_fst_preserved _
          (fun p => by by_cases hp : p.1 = q.1 <;> simp [hp]) tot] at hm
        exact hm
      · intro hm
        rw [keysOf_map_fst_preserved _
          (fun p => by by_cases hp : p.1 = q.1 <;> simp [hp]) tot]
        exact hm
    · rw [List.filter_cons_of_neg (by simpa using hq)]
      show addDayTotals (if hasKey tot q.1 then _ else tot) rest =
        addDayTotals tot (rest.filter _)
      have hh : ¬hasKey tot q.1 = true := fun hc => hq ((hkeys q.1).mp ((hasKey_iff_mem tot q.1).mp hc))
      rw [if_neg hh]
      exact ih tot hkeys

theorem monthTotals_orphanFree (users : List String) (records : Records) (month : String) :
    monthTotals users records month = monthTotals users (orphanFree users records) month := by
  unfold monthTotals orphanFree
  have hgen : ∀ (recs : Records) (acc : List (String × Int)),
      (∀ x, x ∈ keysOf acc ↔ x ∈ users) →
      recs.foldl (fun tot p =>
        if getMonthFromDateString p.1 = month then addDayTotals tot p.2 else tot) acc =
      (recs.map (fun p => (p.1, p.2.filter (fun q => q.1 ∈ users)))).foldl (fun tot p =>
        if getMonthFromDateString p.1 = month then addDayTotals tot p.2 else tot) acc := by
    intro recs
    induction recs with
    | nil => intro acc _; rfl
    | cons p rest ih =>
      intro acc hkeys
      dsimp only [List.map, List.foldl]
      by_cases hm : getMonthFromDateString p.1 = month
      · rw [if_pos hm, if_pos hm]
        rw [← addDayTotals_filter users p.2 acc hkeys]
        apply ih
        intro x
        rw [addDayTotals_keys]
        exact hkeys x
      · rw [if_neg hm, if_neg hm]
        exact ih acc hkeys
  apply hgen
  intro x
  exact mem_keysOf_initTotals users x

/-- C10: entries keyed by names not in `store.users` contribute nothing to
    the leaderboard: `monthlyStats` over the store equals `monthlyStats`
    over the store with all orphan entries removed, and no row is ever
    produced for a non-member (every row's user is in `users`). -/
theorem monthlyStats_ignores_orphans (users : List String) (records : Records) (today : Date) :
    monthlyStats users records today = monthlyStats users (orphanFree users records) today ∧
    ∀ row ∈ monthlyStats users records today, row.user ∈ users := by
  refine ⟨?_, monthlyStats_user_mem users records today⟩
  show ((monthTotals users records (getMonthFromDateString (getTodayDateString today))).map
      (fun p => MonthRow.mk p.1 p.2 (calculateConsecutiveDays p.1 records today))).mergeSort
      (fun a b => decide (b.total ≤ a.total)) =
    ((monthTotals users (orphanFree users records)
        (getMonthFromDateString (getTodayDateString today))).map
      (fun p => MonthRow.mk p.1 p.2
        (calculateConsecutiveDays p.1 (orphanFree users records) today))).mergeSort
      (fun a b => decide (b.total ≤ a.total))
  rw [← monthTotals_orphanFree]
  congr 1
  apply List.map_congr_left
  intro p hp
  have hmemk : p.1 ∈ keysOf (monthTotals users records
      (getMonthFromDateString (getTodayDateString today))) := by
    unfold keysOf
    exact List.mem_map_of_mem _ hp
  rw [monthTotals_keys, mem_keysOf_initTotals] at hmemk
  rw [← calculateConsecutiveDays_orphanFree users records hmemk today]

-- ## Monthly activity chart (`MonthlyChart.chartData`)

/-- The `YYYY-MM` month key of a date with year 0..9999 (what
    `getMonthFromDateString` returns on this app's date keys). -/
def monthKey (y : Int) (m : Nat) : String :=
  String.mk (pad4 y.toNat ++ '-' :: pad2 m)

theorem month_of_toKey {d : Date} (h0 : 0 ≤ d.year) (h1 : d.year ≤ 9999) :
    getMonthFromDateString (toKey d) = monthKey d.year d.month := by
  unfold getMonthFromDateString monthKey
  rw [show (toKey d).data = pad4 d.year.toNat ++ '-' :: pad2 d.month ++ '-' :: pad2 d.day
    from toKey_data_nonneg h0 h1]
  rfl

theorem monthKey_inj {y₁ y₂ : Int} {m₁ m₂ : Nat}
    (hy₁ : 0 ≤ y₁) (hy₂ : y₁ ≤ 9999) (hy₃ : 0 ≤ y₂) (hy₄ : y₂ ≤ 9999)
    (hm₁ : m₁ ≤ 12) (hm₂ : m₂ ≤ 12)
    (h : monthKey y₁ m₁ = monthKey y₂ m₂) : y₁ = y₂ ∧ m₁ = m₂ := by
  unfold monthKey at h
  have hdata := congrArg String.data h
  simp only [pad4, pad2, List.cons_append, List.nil_append, List.cons.injEq,
    and_true, true_and] at hdata
  obtain ⟨q1, q2, q3, q4, q5, q6⟩ := hdata
  have e1 := digitChar_inj _ (mod10_lt _) _ (mod10_lt _) q1
  have e2 := digitChar_inj _ (mod10_lt _) _ (mod10_lt _) q2
  have e3 := digitChar_inj _ (mod10_lt _) _ (mod10_lt _) q3
  have e4 := digitChar_inj _ (mod10_lt _) _ (mod10_lt _) q4
  have e5 := digitChar_inj _ (mod10_lt _) _ (mod10_lt _) q5
  have e6 := digitChar_inj _ (mod10_lt _) _ (mod10_lt _) q6
  constructor
  · omega
  · omega

/-- `dailyCounts` after its zero-initialisation loop:
    `for (let i = 1; i <= daysInMonth; i++) dailyCounts[i] = 0;`. -/
def initCounts (n : Nat) : List (Nat × Nat) :=
  (List.range' 1 n).map (fun i => (i, 0))

/-- Assignment `dailyCounts[day] = count` on the integer-keyed JS object
    (`Object.entries` of such an object enumerates ascending numeric keys;
    in-range assignments replace in place, so the list stays ordered). -/
def setCountKey (l : List (Nat × Nat)) (k : Nat) (v : Nat) : List (Nat × Nat) :=
  if l.any (fun p => p.1 = k) then l.map (fun p => if p.1 = k then (k, v) else p)
  else l ++ [(k, v)]

/-- The tally loop of `MonthlyChart.chartData`: for each record of the
    current month, `dailyCounts[new Date(date).getDate()] = Object.keys(records[date]).length`
    (the number of users who checked in, not the sum of chapters). For a
    malformed key `new Date(date).getDate()` would be `NaN`; on the
    well-formed stores the theorem below quantifies over, the `none` arm is
    unreachable. -/
def chartFold (month : String) (records : Records) (acc : List (Nat × Nat)) :
    List (Nat × Nat) :=
  records.foldl (fun acc p =>
    if getMonthFromDateString p.1 = month then
      match parseDateKey p.1 with
      | some d => setCountKey acc d.day p.2.length
      | none => acc
    else acc) acc

/-- `chartData` of `MonthlyChart`: a zero entry for each day 1..daysInMonth
    of the current month (the source computes the day count via
    `new Date(new Date(currentMonth).getFullYear(), new Date(currentMonth).getMonth() + 1, 0).getDate()`,
    the number of days in today's month), overwritten with each recorded
    day's checked-in count, returned via `Object.entries`. -/
def chartData (records : Records) (today : Date) : List (Nat × Nat) :=
  let currentMonth := getMonthFromDateString (getTodayDateString today)
  chartFold currentMonth records (initCounts (daysInMonth today.year today.month))

theorem setCountKey_mapped (ds : List Nat) (f : Nat → Nat) (k v : Nat) (hk : k ∈ ds) :
    setCountKey (ds.map (fun d => (d, f d))) k v =
      ds.map (fun d => (d, if d = k then v else f d)) := by
  unfold setCountKey
  rw [if_pos (by
    rw [List.any_eq_true]
    exact ⟨(k, f k), List.mem_map_of_mem _ hk, by simp⟩)]
  rw [List.map_map]
  apply List.map_congr_left
  intro d _
  dsimp only [Function.comp]
  by_cases hd : d = k
  · subst hd
    simp
  · rw [if_neg hd, if_neg hd]

theorem chartFold_cons (month : String) (p : String × DayMap) (rest : Records)
    (acc : List (Nat × Nat)) :
    chartFold month (p :: rest) acc = chartFold month rest
      (if getMonthFromDateString p.1 = month then
        (match parseDateKey p.1 with
         | some d => setCountKey acc d.day p.2.length
         | none => acc)
      else acc) := rfl

theorem chartFold_eval (y : Int) (m : Nat) (h0 : 0 ≤ y) (h1 : y ≤ 9999)
    (hm1 : 1 ≤ m) (hm2 : m ≤ 12) (ds : List Nat)
    (hds : ∀ d ∈ ds, 1 ≤ d ∧ d ≤ daysInMonth y m)
    (hall : ∀ k, 1 ≤ k → k ≤ daysInMonth y m → k ∈ ds) :
    ∀ (recs : Records) (f : Nat → Nat),
    (keysOf recs).Nodup →
    (∀ p ∈ recs, ∃ dp : Date, dp.Valid ∧ 0 ≤ dp.year ∧ dp.year ≤ 9999 ∧ p.1 = toKey dp) →
    chartFold (monthKey y m) recs (ds.map (fun d => (d, f d))) =
      ds.map (fun d => (d,
        match lookupKey recs (toKey ⟨y, m, d⟩) with
        | some sub => sub.length
        | none => f d)) := by
  intro recs
  induction recs with
  | nil =>
    intro f _ _
    apply List.map_congr_left
    intro d _
    rfl
  | cons p rest ih =>
    intro f hnd hkeys
    obtain ⟨pk, psub⟩ := p
    obtain ⟨dp, hdpv, hdp0, hdp1, hdpk⟩ := hkeys (pk, psub) (List.mem_cons_self _ _)
    obtain ⟨dpy, dpm, dpd⟩ := dp
    rw [keysOf_cons] at hnd
    have hc := List.nodup_cons.mp hnd
    rw [chartFold_cons]
    dsimp only at hdpk hc ⊢
    by_cases hpm : getMonthFromDateString pk = monthKey y m
    · rw [if_pos hpm]
      have hym : dpy = y ∧ dpm = m := by
        rw [hdpk, month_of_toKey hdp0 hdp1] at hpm
        exact monthKey_inj hdp0 hdp1 h0 h1 hdpv.2.1 hm2 hpm
      rw [hym.1, hym.2] at hdpv hdp0 hdp1 hdpk
      have hparse : parseDateKey pk = some ⟨y, m, dpd⟩ := by
        rw [hdpk]
        exact parseDateKey_toKey hdpv hdp0 hdp1
      rw [hparse]
      dsimp only
      have hdb : 1 ≤ dpd ∧ dpd ≤ daysInMonth y m := ⟨hdpv.2.2.1, hdpv.2.2.2⟩
      rw [setCountKey_mapped ds f dpd _ (hall dpd hdb.1 hdb.2)]
      rw [ih (fun d => if d = dpd then psub.length else f d) hc.2
        (fun q hq => hkeys q (List.mem_cons_of_mem _ hq))]
      apply List.map_congr_left
      intro d hd
      have hvd : (⟨y, m, d⟩ : Date).Valid := ⟨hm1, hm2, (hds d hd).1, (hds d hd).2⟩
      by_cases hdd : d = dpd
      · subst hdd
        rw [lookupKey_cons, if_pos hdpk]
        have hnone : lookupKey rest (toKey ⟨y, m, d⟩) = none := by
          apply lookupKey_eq_none
          rw [← hdpk]
          exact hc.1
        rw [hnone]
        simp
      · have hb1 : -999999 ≤ (⟨y, m, dpd⟩ : Date).year := by
          show (-999999 : Int) ≤ y
          omega
        have hb2 : (⟨y, m, dpd⟩ : Date).year ≤ 9999 := h1
        have hb3 : -999999 ≤ (⟨y, m, d⟩ : Date).year := hb1
        have hb4 : (⟨y, m, d⟩ : Date).year ≤ 9999 := h1
        have hkne : pk ≠ toKey ⟨y, m, d⟩ := by
          rw [hdpk]
          intro he
          have hinj := toKey_inj hdpv hvd hb1 hb2 hb3 hb4 he
          injection hinj with e_y e_m e_d
          exact hdd e_d.symm
        rw [lookupKey_cons, if_neg hkne]
        cases hl : lookupKey rest (toKey ⟨y, m, d⟩) with
        | none => simp [hdd]
        | some sub => rfl
    · rw [if_neg hpm]
      rw [ih f hc.2 (fun q hq => hkeys q (List.mem_cons_of_mem _ hq))]
      apply List.map_congr_left
      intro d hd
      have hvd : (⟨y, m, d⟩ : Date).Valid := ⟨hm1, hm2, (hds d hd).1, (hds d hd).2⟩
      have hkne : pk ≠ toKey ⟨y, m, d⟩ := by
        intro he
        apply hpm
        rw [he, month_of_toKey (d := ⟨y, m, d⟩) (by exact h0) (by exact h1)]
      rw [lookupKey_cons, if_neg hkne]


theorem isSome_lookupKey_iff {β : Type} (l : List (String × β)) (k : String) :
    (lookupKey l k).isSome = true ↔ k ∈ keysOf l := by
  constructor
  · intro h
    cases hl : lookupKey l k with
    | none => rw [hl] at h; simp at h
    | some v => exact lookupKey_some_mem hl
  · intro h
    obtain ⟨v, hv⟩ := lookupKey_isSome_of_mem h
    rw [hv]
    rfl

theorem filter_users_count {users : List String} {sub : DayMap}
    (husers : users.Nodup) (hsubnd : (keysOf sub).Nodup)
    (hsubset : ∀ q ∈ sub, q.1 ∈ users) :
    (users.filter (fun u => (lookupKey sub u).isSome)).length = sub.length := by
  have hfeq : users.filter (fun u => (lookupKey sub u).isSome) =
      users.filter (fun u => decide (u ∈ keysOf sub)) := by
    apply List.filter_congr
    intro u _
    by_cases hm : u ∈ keysOf sub
    · rw [decide_eq_true hm]
      exact (isSome_lookupKey_iff sub u).mpr hm
    · rw [decide_eq_false hm]
      cases hl : lookupKey sub u with
      | none => rfl
      | some v => exact absurd (lookupKey_some_mem hl) hm
  rw [hfeq]
  have hkeysub : keysOf sub ⊆ users := by
    intro x hx
    unfold keysOf at hx
    rw [List.mem_map] at hx
    obtain ⟨q, hq, rfl⟩ := hx
    exact hsubset q hq
  have hfin : (users.filter (fun u => decide (u ∈ keysOf sub))).toFinset =
      (keysOf sub).toFinset := by
    ext x
    simp only [List.mem_toFinset, List.mem_filter, decide_eq_true_eq]
    constructor
    · rintro ⟨_, hx⟩
      exact hx
    · intro hx
      exact ⟨hkeysub hx, hx⟩
  have h1 := List.toFinset_card_of_nodup (husers.filter (fun u => decide (u ∈ keysOf sub)))
  have h2 := List.toFinset_card_of_nodup hsubnd
  rw [hfin, h2] at h1
  rw [← h1]
  unfold keysOf
  rw [List.length_map]

/-- C3: for a well-formed store (every record key is the ISO key of a valid
    date, keys and per-day names unique, every per-day name a member) and
    today's real date, `chartData` is exactly one entry per calendar day of
    the current month, numbered sequentially from 1 with no gaps, each
    holding the number of distinct members with an entry that day (not the
    chapter sum); days with no record hold 0 (the length-`days_in_month`
    and day-numbering claims are immediate from the right-hand side). -/
theorem chartData_daily_activity (records : Records) (today : Date) (users : List String)
    (hvt : today.Valid) (h0 : 0 ≤ today.year) (h1 : today.year ≤ 9999)
    (husers : users.Nodup)
    (hnd : (keysOf records).Nodup)
    (hkeys : ∀ p ∈ records, ∃ dp : Date, dp.Valid ∧ 0 ≤ dp.year ∧ dp.year ≤ 9999 ∧
      p.1 = toKey dp)
    (hsubnd : ∀ p ∈ records, (keysOf p.2).Nodup)
    (hsubmem : ∀ p ∈ records, ∀ q ∈ p.2, q.1 ∈ users) :
    chartData records today =
      (List.range' 1 (daysInMonth today.year today.month)).map (fun day =>
        (day, (users.filter (fun u =>
          (entryVal records (toKey ⟨today.year, today.month, day⟩) u).isSome)).length)) := by
  obtain ⟨hm1, hm2, _, _⟩ := hvt
  have hrange : ∀ d ∈ List.range' 1 (daysInMonth today.year today.month),
      1 ≤ d ∧ d ≤ daysInMonth today.year today.month := by
    intro d hd
    rw [List.mem_range'_1] at hd
    omega
  have hall : ∀ k, 1 ≤ k → k ≤ daysInMonth today.year today.month →
      k ∈ List.range' 1 (daysInMonth today.year today.month) := by
    intro k hk1 hk2
    rw [List.mem_range'_1]
    omega
  have hstep : chartData records today =
      chartFold (monthKey today.year today.month) records
        ((List.range' 1 (daysInMonth today.year today.month)).map (fun i => (i, 0))) := by
    unfold chartData getTodayDateString initCounts
    rw [month_of_toKey h0 h1]
  rw [hstep]
  rw [chartFold_eval today.year today.month h0 h1 hm1 hm2 _ hrange hall records
    (fun _ => 0) hnd hkeys]
  apply List.map_congr_left
  intro d hd
  unfold entryVal
  cases hl : lookupKey records (toKey ⟨today.year, today.month, d⟩) with
  | none =>
    simp
  | some sub =>
    simp only [Option.some_bind]
    rw [filter_users_count husers (hsubnd _ (lookupKey_mem hl))
      (fun q hq => hsubmem _ (lookupKey_mem hl) q hq)]

/-- A well-formed three-member store for the chart witness: 2024-05-01 has
    one member checked in, 2024-05-02 has two. -/
def exChartRecords : Records :=
  [("2024-05-01", [("A", 3)]), ("2024-05-02", [("A", 2), ("B", 1)])]

/-- Witness for C3 at the spec's worked example (May 2024 has 31 days; day
    1 count 1, day 2 count 2, all other days 0). -/
theorem chartData_daily_activity_witness :
    chartData exChartRecords ⟨2024, 5, 6⟩ =
      (List.range' 1 (daysInMonth 2024 5)).map (fun day =>
        (day, (["A", "B", "C"].filter (fun u =>
          (entryVal exChartRecords (toKey ⟨2024, 5, day⟩) u).isSome)).length)) :=
  chartData_daily_activity exChartRecords ⟨2024, 5, 6⟩ ["A", "B", "C"]
    (by decide) (by decide) (by decide) (by decide) (by decide)
    (by
      intro p hp
      simp only [exChartRecords, List.mem_cons, List.not_mem_nil, or_false] at hp
      rcases hp with rfl | rfl
      · exact ⟨⟨2024, 5, 1⟩, by decide, by decide, by decide, by decide⟩
      · exact ⟨⟨2024, 5, 2⟩, by decide, by decide, by decide, by decide⟩)
    (by decide) (by decide)
